import Mathlib

/-!
Verification of the `StringIter` crate (zero-copy UTF-8 cursor library).

Shallow embedding conventions:
* A cursor / string view is a `List Nat` of bytes (each `< 256` on valid input).
  Rust's pointer arithmetic `s.as_ptr() - self.str.as_ptr()` is replaced by a
  running byte-offset threaded through the decode loop (the design notes of the
  library describe this replacement as the equivalent, strictly safer port).
* A pattern (`trait Pattern`) is a structure `Pat σ ε`: `matches` takes the
  mutable internal state explicitly and returns `Except ε Bool` together with
  the new state; `len` is the look-ahead length; `sep` the separator
  disposition.  Infallible patterns use `ε := Empty` (Rust's `Never`).
* Rust panics and undefined behaviour (out-of-contract `get_unchecked`,
  `usize` underflow) are modelled by `Option`/`none` results where they can be
  reached from safe inputs; `get_unchecked` reads that are reachable only from
  invalid (non-UTF-8) input, which the crate documents as out of scope, are
  totalized with `List.getD _ 0`.
-/

namespace StringIter

/-- Separator disposition, from `pattern.rs` (`enum Sep`). -/
inductive Sep where
  | Retain
  | Yield
  | Split
  | Conjoin
deriving DecidableEq

/-- Source `Sep::is_yielded` from `slice.rs`. -/
def Sep.isYielded : Sep → Bool
  | Sep.Yield => true
  | Sep.Conjoin => true
  | _ => false

/-- Source `Sep::is_retained` from `slice.rs`. -/
def Sep.isRetained : Sep → Bool
  | Sep.Retain => true
  | Sep.Conjoin => true
  | _ => false

/-- The `Pattern` trait from `pattern.rs`: `matches` threads the pattern's
mutable state `σ` explicitly; `len` is the look-ahead length (`NonZeroUsize`,
hence the positivity field); `sep` the separator disposition. -/
structure Pat (σ : Type u) (ε : Type v) where
  test : σ → Nat → List Nat → Except ε Bool × σ
  len : Nat := 1
  lenPos : 0 < len := by decide
  sep : Sep := Sep.Retain

/-- Source `impl Pattern for char` (`pattern.rs`): matches a single scalar, stateless. -/
def charPat (c : Nat) : Pat Unit Empty where
  test := fun st x _ => (Except.ok (x == c), st)

/-- Source `SepConfig` / `sep_with` (`pattern.rs`): overlay that changes only the
separator disposition. -/
def Pat.sepWith (p : Pat σ ε) (s : Sep) : Pat σ ε :=
  { test := p.test, len := p.len, lenPos := p.lenPos, sep := s }

/-! ## Decoder (`iter_fns.rs`) -/

/-- Indexed byte read (`get_unchecked`); out-of-bounds reads, reachable only
from invalid input, are totalized to 0. -/
def byteAt (s : List Nat) (i : Nat) : Nat := s.getD i 0

def B6 : Nat := 0b111111
def B5 : Nat := 0b11111
def B4 : Nat := 0b1111
def B3 : Nat := 0b111

/-- Function `s2c1` from `iter_fns.rs`. -/
def s2c1 (s : List Nat) : Nat := s.getD 0 0

/-- Function `s2c2` from `iter_fns.rs`. -/
def s2c2 (s : List Nat) : Nat :=
  ((s.getD 0 0 &&& B5) <<< 6) ||| (s.getD 1 0 &&& B6)

/-- Function `s2c3` from `iter_fns.rs`. -/
def s2c3 (s : List Nat) : Nat :=
  ((((s.getD 0 0 &&& B4) <<< 6) ||| (s.getD 1 0 &&& B6)) <<< 6) ||| (s.getD 2 0 &&& B6)

/-- Function `s2c4` from `iter_fns.rs`. -/
def s2c4 (s : List Nat) : Nat :=
  ((((((s.getD 0 0 &&& B3) <<< 6) ||| (s.getD 1 0 &&& B6)) <<< 6) |||
    (s.getD 2 0 &&& B6)) <<< 6) ||| (s.getD 3 0 &&& B6)

/-- Source `StringIter::next_char`: decode one code point at the front, returning
`(scalar, chunk, rest)`.  The lead-byte dispatch is exactly the source's
`< 0x80 / < 0xE0 / < 0xF0 / else` chain. -/
def nextChar (s : List Nat) : Option (Nat × List Nat × List Nat) :=
  match s.head? with
  | none => none
  | some x =>
    if x < 0x80 then some (s2c1 (s.take 1), s.take 1, s.drop 1)
    else if x < 0xE0 then some (s2c2 (s.take 2), s.take 2, s.drop 2)
    else if x < 0xF0 then some (s2c3 (s.take 3), s.take 3, s.drop 3)
    else some (s2c4 (s.take 4), s.take 4, s.drop 4)

/-- Source `StringIter::next_char_back`: decode one code point at the back, returning
`(scalar, chunk, front)`.  Walks backward from the last byte testing the
two- and three-byte lead masks, exactly as the source. -/
def nextCharBack (s : List Nat) : Option (Nat × List Nat × List Nat) :=
  if s.length = 0 then none
  else
    let i1 := s.length - 1
    if byteAt s i1 < 0x80 then some (s2c1 (s.drop i1), s.drop i1, s.take i1)
    else
      let i2 := i1 - 1
      if byteAt s i2 &&& 0b11000000 = 0b11000000 then
        some (s2c2 (s.drop i2), s.drop i2, s.take i2)
      else
        let i3 := i2 - 1
        if byteAt s i3 &&& 0b11100000 = 0b11100000 then
          some (s2c3 (s.drop i3), s.drop i3, s.take i3)
        else
          let i4 := i3 - 1
          some (s2c4 (s.drop i4), s.drop i4, s.take i4)

theorem nextChar_none_iff (s : List Nat) : nextChar s = none ↔ s = [] := by
  cases s with
  | nil => simp [nextChar]
  | cons x t =>
    simp only [nextChar, List.head?]
    split_ifs <;> simp

theorem nextChar_rest_length {s : List Nat} {c : Nat} {v r : List Nat}
    (h : nextChar s = some (c, v, r)) : r.length < s.length := by
  cases s with
  | nil => simp [nextChar] at h
  | cons x t =>
    simp only [nextChar, List.head?] at h
    split_ifs at h <;>
      (simp only [Option.some.injEq, Prod.mk.injEq] at h
       obtain ⟨-, -, hr⟩ := h
       subst hr
       simp
       try omega)

theorem nextCharBack_rest_length {s : List Nat} {c : Nat} {v r : List Nat}
    (h : nextCharBack s = some (c, v, r)) : r.length < s.length := by
  by_cases hs : s.length = 0
  · simp [nextCharBack, hs] at h
  · simp only [nextCharBack, hs, if_false] at h
    split_ifs at h <;>
      (simp only [Option.some.injEq, Prod.mk.injEq] at h
       obtain ⟨-, -, hr⟩ := h
       subst hr
       simp [List.length_take]
       omega)

/-- Fuelled loop of front-to-back iteration; each step consumes at least one
byte, so `s.length` fuel is always enough. -/
def iterViewsF : Nat → List Nat → List (List Nat)
  | 0, _ => []
  | fuel + 1, s =>
    match nextChar s with
    | none => []
    | some (_, v, r) => v :: iterViewsF fuel r

/-- Views yielded by front-to-back iteration (`Iterator for StringIter`,
repeated `next_char`). -/
def iterViews (s : List Nat) : List (List Nat) := iterViewsF s.length s

/-- Fuelled loop of back-to-front iteration. -/
def iterViewsBackF : Nat → List Nat → List (List Nat)
  | 0, _ => []
  | fuel + 1, s =>
    match nextCharBack s with
    | none => []
    | some (_, v, r) => v :: iterViewsBackF fuel r

/-- The views yielded back-to-front (`DoubleEndedIterator for StringIter`,
i.e. repeated `next_char_back`). -/
def iterViewsBack (s : List Nat) : List (List Nat) := iterViewsBackF s.length s

/-! ## Specification side: UTF-8 validity

The crate's precondition is that the cursor holds validly-encoded text.  The
following definitions are the specification of that precondition (they do not
come from the source, which assumes validity). -/

/-- A Unicode scalar value: below 0x110000 and outside the surrogate range. -/
def ValidChar (c : Nat) : Prop := c < 0x110000 ∧ (c < 0xD800 ∨ 0xE000 ≤ c)

/-- Standard UTF-8 encoding of one scalar. -/
def encodeChar (c : Nat) : List Nat :=
  if c < 0x80 then [c]
  else if c < 0x800 then [0xC0 + c / 64, 0x80 + c % 64]
  else if c < 0x10000 then [0xE0 + c / 4096, 0x80 + c / 64 % 64, 0x80 + c % 64]
  else [0xF0 + c / 262144, 0x80 + c / 4096 % 64, 0x80 + c / 64 % 64, 0x80 + c % 64]

/-- The byte list `s` is exactly the UTF-8 encoding of the scalar list `cs`. -/
def Encodes (cs : List Nat) (s : List Nat) : Prop :=
  s = (cs.map encodeChar).flatten ∧ ∀ c ∈ cs, ValidChar c

/-- An executable (permissive: no overlong or surrogate checks) UTF-8 shape
validator, used to exhibit byte lists that are not sliceable at code-point
boundaries.  The first argument counts continuation bytes still owed. -/
def validUtf8Aux : Nat → List Nat → Bool
  | 0, [] => true
  | 0, x :: t =>
    if x < 0x80 then validUtf8Aux 0 t
    else if x < 0xC0 then false
    else if x < 0xE0 then validUtf8Aux 1 t
    else if x < 0xF0 then validUtf8Aux 2 t
    else validUtf8Aux 3 t
  | _ + 1, [] => false
  | n + 1, x :: t => (decide (0x80 ≤ x) && decide (x < 0xC0)) && validUtf8Aux n t

/-- A byte list has UTF-8 shape (lead bytes followed by the right number of
continuation bytes). -/
def validUtf8 (s : List Nat) : Bool := validUtf8Aux 0 s

theorem validUtf8_encode {c : Nat} (h : ValidChar c) {r : List Nat}
    (hr : validUtf8 r = true) : validUtf8 (encodeChar c ++ r) = true := by
  obtain ⟨h1, -⟩ := h
  unfold validUtf8 at hr ⊢
  by_cases hc1 : c < 0x80
  · simp only [encodeChar, if_pos hc1, List.cons_append, List.nil_append]
    rw [validUtf8Aux, if_pos hc1]
    exact hr
  · by_cases hc2 : c < 0x800
    · simp only [encodeChar, if_neg hc1, if_pos hc2, List.cons_append, List.nil_append]
      rw [validUtf8Aux, if_neg (by omega), if_neg (by omega), if_pos (by omega),
        validUtf8Aux]
      simp only [hr, Bool.and_true, Bool.and_eq_true, decide_eq_true_eq]
      omega
    · by_cases hc3 : c < 0x10000
      · simp only [encodeChar, if_neg hc1, if_neg hc2, if_pos hc3, List.cons_append,
          List.nil_append]
        rw [validUtf8Aux, if_neg (by omega), if_neg (by omega), if_neg (by omega),
          if_pos (by omega), validUtf8Aux, validUtf8Aux]
        simp only [hr, Bool.and_true, Bool.and_eq_true, decide_eq_true_eq]
        omega
      · simp only [encodeChar, if_neg hc1, if_neg hc2, if_neg hc3, List.cons_append,
          List.nil_append]
        rw [validUtf8Aux, if_neg (by omega), if_neg (by omega), if_neg (by omega),
          if_neg (by omega), validUtf8Aux, validUtf8Aux, validUtf8Aux]
        simp only [hr, Bool.and_true, Bool.and_eq_true, decide_eq_true_eq]
        omega

/-- Soundness: every validly-encoded byte list passes the shape validator, so
a list failing it cannot be on code-point boundaries. -/
theorem Encodes_validUtf8 {cs s : List Nat} (h : Encodes cs s) :
    validUtf8 s = true := by
  obtain ⟨hs, hv⟩ := h
  subst hs
  induction cs with
  | nil => rfl
  | cons c t ih =>
    simp only [List.map_cons, List.flatten_cons]
    exact validUtf8_encode (hv c (by simp)) (ih (fun x hx => hv x (by simp [hx])))

/-! ## Decoding valid input (towards claim C2) -/

theorem byteAt_append_right (l r : List Nat) (i : Nat) (h : l.length ≤ i) :
    byteAt (l ++ r) i = byteAt r (i - l.length) := by
  simp [byteAt, List.getD, List.getElem?_append_right h]

theorem byteAt0 (a : Nat) (l : List Nat) : byteAt (a :: l) 0 = a := rfl

theorem byteAt1 (a b : Nat) (l : List Nat) : byteAt (a :: b :: l) 1 = b := rfl

theorem byteAt2 (a b d : Nat) (l : List Nat) : byteAt (a :: b :: d :: l) 2 = d := rfl

theorem byteAt3 (a b d e : Nat) (l : List Nat) : byteAt (a :: b :: d :: e :: l) 3 = e := rfl

theorem lead2_and : ∀ d : Nat, d < 32 → (192 + d) &&& 192 = 192 := by decide

theorem lead3_and : ∀ d : Nat, d < 16 → (224 + d) &&& 224 = 224 := by decide

theorem cont_and_C0 : ∀ m : Nat, m < 64 → (128 + m) &&& 192 = 128 := by decide

theorem cont_and_E0_ne : ∀ m : Nat, m < 64 → ¬((128 + m) &&& 224 = 224) := by decide

/-- On valid input, `next_char` consumes exactly the first scalar's encoding. -/
theorem nextChar_encode {c : Nat} (h : ValidChar c) (r : List Nat) :
    ∃ ch, nextChar (encodeChar c ++ r) = some (ch, encodeChar c, r) := by
  obtain ⟨h1, -⟩ := h
  by_cases hc1 : c < 0x80
  · refine ⟨s2c1 [c], ?_⟩
    simp [encodeChar, nextChar, List.head?, hc1]
  · by_cases hc2 : c < 0x800
    · have hA : ¬ (0xC0 + c / 64 < 0x80) := by omega
      have hB : 0xC0 + c / 64 < 0xE0 := by omega
      refine ⟨s2c2 [0xC0 + c / 64, 0x80 + c % 64], ?_⟩
      simp [encodeChar, nextChar, List.head?, hc1, hc2, hA, hB, s2c2]
    · by_cases hc3 : c < 0x10000
      · have hA : ¬ (0xE0 + c / 4096 < 0x80) := by omega
        have hB : ¬ (0xE0 + c / 4096 < 0xE0) := by omega
        have hC : 0xE0 + c / 4096 < 0xF0 := by omega
        refine ⟨s2c3 [0xE0 + c / 4096, 0x80 + c / 64 % 64, 0x80 + c % 64], ?_⟩
        simp [encodeChar, nextChar, List.head?, hc1, hc2, hc3, hA, hB, hC, s2c3]
      · have hA : ¬ (0xF0 + c / 262144 < 0x80) := by omega
        have hB : ¬ (0xF0 + c / 262144 < 0xE0) := by omega
        have hC : ¬ (0xF0 + c / 262144 < 0xF0) := by omega
        refine ⟨s2c4 [0xF0 + c / 262144, 0x80 + c / 4096 % 64, 0x80 + c / 64 % 64,
          0x80 + c % 64], ?_⟩
        simp [encodeChar, nextChar, List.head?, hc1, hc2, hc3, hA, hB, hC, s2c4]

/-- On valid input, `next_char_back` consumes exactly the last scalar's
encoding. -/
theorem nextCharBack_encode {c : Nat} (h : ValidChar c) (r : List Nat) :
    ∃ ch, nextCharBack (r ++ encodeChar c) = some (ch, encodeChar c, r) := by
  obtain ⟨h1, -⟩ := h
  by_cases hc1 : c < 0x80
  · simp only [encodeChar, if_pos hc1]
    refine ⟨s2c1 [c], ?_⟩
    have hl : (r ++ [c]).length = r.length + 1 := by simp
    simp only [nextCharBack, hl]
    rw [if_neg (by omega), (by omega : r.length + 1 - 1 = r.length)]
    rw [byteAt_append_right _ _ _ (le_refl _), Nat.sub_self]
    rw [byteAt0, if_pos hc1, List.drop_left, List.take_left]
  · by_cases hc2 : c < 0x800
    · simp only [encodeChar, if_neg hc1, if_pos hc2]
      refine ⟨s2c2 [0xC0 + c / 64, 0x80 + c % 64], ?_⟩
      have hl : (r ++ [0xC0 + c / 64, 0x80 + c % 64]).length = r.length + 2 := by simp
      simp only [nextCharBack, hl]
      rw [if_neg (by omega), (by omega : r.length + 2 - 1 = r.length + 1)]
      rw [byteAt_append_right _ _ _ (by omega),
        (by omega : r.length + 1 - r.length = 1)]
      rw [byteAt1]
      rw [if_neg (by omega), (by omega : r.length + 1 - 1 = r.length)]
      rw [byteAt_append_right _ _ _ (le_refl _), Nat.sub_self]
      rw [byteAt0]
      rw [if_pos (lead2_and (c / 64) (by omega)), List.drop_left, List.take_left]
    · by_cases hc3 : c < 0x10000
      · simp only [encodeChar, if_neg hc1, if_neg hc2, if_pos hc3]
        refine ⟨s2c3 [0xE0 + c / 4096, 0x80 + c / 64 % 64, 0x80 + c % 64], ?_⟩
        have hl : (r ++ [0xE0 + c / 4096, 0x80 + c / 64 % 64, 0x80 + c % 64]).length
            = r.length + 3 := by simp
        simp only [nextCharBack, hl]
        rw [if_neg (by omega), (by omega : r.length + 3 - 1 = r.length + 2)]
        rw [byteAt_append_right _ _ _ (by omega),
          (by omega : r.length + 2 - r.length = 2)]
        rw [byteAt2]
        rw [if_neg (by omega), (by omega : r.length + 2 - 1 = r.length + 1)]
        rw [byteAt_append_right _ _ _ (by omega),
          (by omega : r.length + 1 - r.length = 1)]
        rw [byteAt1]
        rw [if_neg (by rw [cont_and_C0 (c / 64 % 64) (by omega)]; omega),
          (by omega : r.length + 1 - 1 = r.length)]
        rw [byteAt_append_right _ _ _ (le_refl _), Nat.sub_self]
        rw [byteAt0]
        rw [if_pos (lead3_and (c / 4096) (by omega)), List.drop_left, List.take_left]
      · simp only [encodeChar, if_neg hc1, if_neg hc2, if_neg hc3]
        refine ⟨s2c4 [0xF0 + c / 262144, 0x80 + c / 4096 % 64, 0x80 + c / 64 % 64,
          0x80 + c % 64], ?_⟩
        have hl : (r ++ [0xF0 + c / 262144, 0x80 + c / 4096 % 64, 0x80 + c / 64 % 64,
            0x80 + c % 64]).length = r.length + 4 := by simp
        simp only [nextCharBack, hl]
        rw [if_neg (by omega), (by omega : r.length + 4 - 1 = r.length + 3)]
        rw [byteAt_append_right _ _ _ (by omega),
          (by omega : r.length + 3 - r.length = 3)]
        rw [byteAt3]
        rw [if_neg (by omega), (by omega : r.length + 3 - 1 = r.length + 2)]
        rw [byteAt_append_right _ _ _ (by omega),
          (by omega : r.length + 2 - r.length = 2)]
        rw [byteAt2]
        rw [if_neg (by rw [cont_and_C0 (c / 64 % 64) (by omega)]; omega),
          (by omega : r.length + 2 - 1 = r.length + 1)]
        rw [byteAt_append_right _ _ _ (by omega),
          (by omega : r.length + 1 - r.length = 1)]
        rw [byteAt1]
        rw [if_neg (cont_and_E0_ne (c / 4096 % 64) (by omega)),
          (by omega : r.length + 1 - 1 = r.length)]
        rw [List.drop_left, List.take_left]

theorem encodeChar_length_pos (c : Nat) : 0 < (encodeChar c).length := by
  unfold encodeChar
  split_ifs <;> simp

theorem iterViewsF_encode {cs : List Nat} (hv : ∀ c ∈ cs, ValidChar c)
    (fuel : Nat) (hf : (cs.map encodeChar).flatten.length ≤ fuel) :
    iterViewsF fuel (cs.map encodeChar).flatten = cs.map encodeChar := by
  induction cs generalizing fuel with
  | nil => cases fuel <;> simp [iterViewsF, nextChar]
  | cons c t ih =>
    simp only [List.map_cons, List.flatten_cons] at hf ⊢
    have hpos : 0 < (encodeChar c).length := encodeChar_length_pos c
    cases fuel with
    | zero =>
      exfalso
      simp only [List.length_append] at hf
      omega
    | succ f =>
      obtain ⟨ch, hch⟩ := nextChar_encode (hv c (by simp)) (t.map encodeChar).flatten
      simp only [iterViewsF, hch]
      rw [ih (fun x hx => hv x (by simp [hx])) f
        (by simp only [List.length_append] at hf; omega)]

theorem iterViews_encode {cs : List Nat} (hv : ∀ c ∈ cs, ValidChar c) :
    iterViews (cs.map encodeChar).flatten = cs.map encodeChar :=
  iterViewsF_encode hv _ (le_refl _)

theorem iterViewsBackF_encode {cs : List Nat} (hv : ∀ c ∈ cs, ValidChar c)
    (fuel : Nat) (hf : (cs.map encodeChar).flatten.length ≤ fuel) :
    iterViewsBackF fuel (cs.map encodeChar).flatten = (cs.map encodeChar).reverse := by
  induction cs using List.reverseRecOn generalizing fuel with
  | nil => cases fuel <;> simp [iterViewsBackF, nextCharBack]
  | append_singleton l a ih =>
    have hs : ((l ++ [a]).map encodeChar).flatten
        = (l.map encodeChar).flatten ++ encodeChar a := by simp
    rw [hs] at hf ⊢
    have hpos : 0 < (encodeChar a).length := encodeChar_length_pos a
    cases fuel with
    | zero =>
      exfalso
      simp only [List.length_append] at hf
      omega
    | succ f =>
      obtain ⟨ch, hch⟩ := nextCharBack_encode (hv a (by simp)) (l.map encodeChar).flatten
      simp only [iterViewsBackF, hch]
      rw [ih (fun x hx => hv x (by simp [hx])) f
        (by simp only [List.length_append] at hf; omega)]
      simp

theorem iterViewsBack_encode {cs : List Nat} (hv : ∀ c ∈ cs, ValidChar c) :
    iterViewsBack (cs.map encodeChar).flatten = (cs.map encodeChar).reverse :=
  iterViewsBackF_encode hv _ (le_refl _)

/-- C2: for every validly-encoded input, concatenating in order the views
yielded by front-to-back iteration (repeated `next_char`) reproduces the input
exactly, and concatenating the views yielded back-to-front (repeated
`next_char_back`), after reversing their order, also reproduces it. -/
theorem C2_concat_views_reproduces_input {cs s : List Nat} (h : Encodes cs s) :
    (iterViews s).flatten = s ∧ ((iterViewsBack s).reverse).flatten = s := by
  obtain ⟨hs, hv⟩ := h
  subst hs
  refine ⟨?_, ?_⟩
  · rw [iterViews_encode hv]
  · rw [iterViewsBack_encode hv]
    simp

theorem C2_concat_views_reproduces_input_witness :
    (iterViews [97, 195, 159]).flatten = [97, 195, 159] ∧
    ((iterViewsBack [97, 195, 159]).reverse).flatten = [97, 195, 159] :=
  @C2_concat_views_reproduces_input [97, 223] [97, 195, 159]
    ⟨by decide, by
      intro c hc
      simp only [List.mem_cons, List.not_mem_nil, or_false] at hc
      rcases hc with rfl | rfl <;> exact ⟨by decide, Or.inl (by decide)⟩⟩

/-! ## Look-ahead peeking (`iter_fns.rs`) and scan units -/

/-- Inner loop of `StringIter::peekn`: the byte index after at most `n` more
code points (`Except.error` carries the index where input ran out). -/
def peeknLoop (s : List Nat) (index : Nat) : Nat → Except Nat Nat
  | 0 => Except.ok index
  | n + 1 =>
    match s[index]? with
    | none => Except.error index
    | some x =>
      if x < 0x80 then peeknLoop s (index + 1) n
      else if x < 0xE0 then peeknLoop s (index + 2) n
      else if x < 0xF0 then peeknLoop s (index + 3) n
      else peeknLoop s (index + 4) n

/-- Source `StringIter::peekn`: the exact `n`-code-point prefix view on
success, or the maximal available shorter prefix as the failure payload. -/
def peekn (s : List Nat) (n : Nat) : Except (List Nat) (List Nat) :=
  match peeknLoop s 0 n with
  | Except.ok i => Except.ok (s.take i)
  | Except.error i => Except.error (s.take i)

/-- View handed to a pattern by `LookAhead::next` (`iterators.rs`): the exact
or maximal peek-n view, both outcomes merged. -/
def peeknView (s : List Nat) (n : Nat) : List Nat :=
  match peekn s n with
  | Except.ok v => v
  | Except.error v => v

/-- Inner loop of `StringIter::peekn_back`: walks backward over at most `n`
code points using the continuation-byte masks. -/
def peeknBackLoop (s : List Nat) (index : Nat) : Nat → Except Nat Nat
  | 0 => Except.ok index
  | n + 1 =>
    if index = 0 then Except.error index
    else
      let j1 := index - 1
      if byteAt s j1 < 0x80 then peeknBackLoop s j1 n
      else
        let j2 := j1 - 1
        if byteAt s j2 &&& 0b11000000 = 0b11000000 then peeknBackLoop s j2 n
        else
          let j3 := j2 - 1
          if byteAt s j3 &&& 0b11100000 = 0b11100000 then peeknBackLoop s j3 n
          else peeknBackLoop s (j3 - 1) n

/-- View handed to a pattern by `LookAhead::next_back`: the exact or maximal
peek-n suffix view, both outcomes merged. -/
def peeknBackView (s : List Nat) (n : Nat) : List Nat :=
  match peeknBackLoop s s.length n with
  | Except.ok i => s.drop i
  | Except.error i => s.drop i

/-- One unit examined by a slicing scan: decoded scalar, the view handed to the
pattern's test, the unit's byte offset in the cursor (the source's
`s.as_ptr() - self.str.as_ptr()`), and the matched-unit byte length recorded
on a hit. -/
structure ScanUnit where
  c : Nat
  view : List Nat
  off : Nat
  clen : Nat

/-- Model of std's `char::len_utf8` (an external collaborator, modelled from
its specification). -/
def utf8Len (c : Nat) : Nat :=
  if c < 0x80 then 1 else if c < 0x800 then 2 else if c < 0x10000 then 3 else 4

/-- Units of plain forward iteration (`for (c, s) in self.clone()`), used when
the pattern's look-ahead length is 1: the view is the char's own chunk and the
recorded length is the chunk's byte length (`s.len()`). -/
def units1F : Nat → List Nat → Nat → List ScanUnit
  | 0, _, _ => []
  | fuel + 1, s, off =>
    match nextChar s with
    | none => []
    | some (c, v, r) => ⟨c, v, off, v.length⟩ :: units1F fuel r (off + v.length)

def units1 (s : List Nat) (off : Nat) : List ScanUnit := units1F s.length s off

/-- Units of `self.clone().look_ahead(l)` iteration: the view is the peek-l
view from the unit's position and the recorded length is `c.len_utf8()`. -/
def unitsLAF (l : Nat) : Nat → List Nat → Nat → List ScanUnit
  | 0, _, _ => []
  | fuel + 1, s, off =>
    match nextChar s with
    | none => []
    | some (c, v, r) =>
      ⟨c, peeknView s l, off, utf8Len c⟩ :: unitsLAF l fuel r (off + v.length)

def unitsLA (l : Nat) (s : List Nat) (off : Nat) : List ScanUnit :=
  unitsLAF l s.length s off

/-- Units of reversed iteration (`self.clone().rev()`, repeated
`next_char_back`): the offset is the chunk's byte position from the cursor's
start, as the source computes by pointer subtraction. -/
def unitsBack1F : Nat → List Nat → List ScanUnit
  | 0, _ => []
  | fuel + 1, s =>
    match nextCharBack s with
    | none => []
    | some (c, v, r) => ⟨c, v, r.length, v.length⟩ :: unitsBack1F fuel r

def unitsBack1 (s : List Nat) : List ScanUnit := unitsBack1F s.length s

/-- Units of `self.clone().look_ahead(l).rev()`: `LookAhead`'s `next_back`
(`iterators.rs`) peeks a suffix view with `peekn_back` but advances from the
front with `self.iter.next()`, so the scalar is the front scalar while the
view (and hence the recorded offset) comes from the back peek. -/
def unitsLABackF (l : Nat) : Nat → List Nat → Nat → List ScanUnit
  | 0, _, _ => []
  | fuel + 1, s, off =>
    match nextChar s with
    | none => []
    | some (c, v, r) =>
      ⟨c, peeknBackView s l, off + (s.length - (peeknBackView s l).length), utf8Len c⟩ ::
        unitsLABackF l fuel r (off + v.length)

def unitsLABack (l : Nat) (s : List Nat) (off : Nat) : List ScanUnit :=
  unitsLABackF l s.length s off

/-- Units examined by `try_next_slice` for pattern `p` on cursor `s` (the
`pat.len().get() == 1` dispatch in `slice.rs`). -/
def unitsFor (p : Pat σ ε) (s : List Nat) : List ScanUnit :=
  if p.len = 1 then units1 s 0 else unitsLA p.len s 0

/-- Units examined by the first loop of `try_next_slice_back`. -/
def unitsForBack (p : Pat σ ε) (s : List Nat) : List ScanUnit :=
  if p.len = 1 then unitsBack1 s else unitsLABack p.len s 0

/-! ## Slicing engine (`slice.rs`) -/

/-- The scan loop of the slicing operations: invoke the pattern's test on each
unit until the first `true`; on a hit return that unit's offset and recorded
length together with the pattern state, on exhaustion return the supplied
defaults; a test failure aborts with the error. -/
def scanUnits (p : Pat σ ε) (st : σ) (us : List ScanUnit) (dIdx dLen : Nat) :
    Except ε (Nat × Nat × σ) :=
  match us with
  | [] => Except.ok (dIdx, dLen, st)
  | u :: rest =>
    match p.test st u.c u.view with
    | (Except.error e, _) => Except.error e
    | (Except.ok true, st2) => Except.ok (u.off, u.clen, st2)
    | (Except.ok false, st2) => scanUnits p st2 rest dIdx dLen

/-- Source `StringIter::try_next_slice` (`slice.rs`): returns the optional
result view, the updated cursor, and the pattern's final state.  `index`
defaults to the full byte length and `char_len` to 0 when the scan exhausts
the cursor without a match. -/
def tryNextSlice (p : Pat σ ε) (st : σ) (s : List Nat) :
    Except ε (Option (List Nat) × List Nat × σ) :=
  if s.length = 0 then Except.ok (none, s, st)
  else
    match scanUnits p st (unitsFor p s) s.length 0 with
    | Except.error e => Except.error e
    | Except.ok (index, clen, st2) =>
      Except.ok
        (some (if p.sep.isYielded then s.take (index + clen) else s.take index),
         if p.sep.isRetained then s.drop index else s.drop (index + clen), st2)

/-- Source `StringIter::try_next_slice_back` (`slice.rs`): after the reverse
scan, the source runs a second, unconditional reverse scan loop (`for (c, s)
in self.clone().rev()`) that re-invokes the pattern and overwrites
`index`/`char_len` if it finds a match; both loops are embedded. -/
def tryNextSliceBack (p : Pat σ ε) (st : σ) (s : List Nat) :
    Except ε (Option (List Nat) × List Nat × σ) :=
  if s.length = 0 then Except.ok (none, s, st)
  else
    match scanUnits p st (unitsForBack p s) s.length 0 with
    | Except.error e => Except.error e
    | Except.ok (i1, c1, st1) =>
      match scanUnits p st1 (unitsBack1 s) i1 c1 with
      | Except.error e => Except.error e
      | Except.ok (index, clen, st2) =>
        Except.ok
          (some (if p.sep.isYielded then s.drop index else s.drop (index + clen)),
           if p.sep.isRetained then s.take (index + clen) else s.take index, st2)

/-- Source `StringIter::next_slice`: the infallible unwrap of
`try_next_slice` (`Err = Never`, i.e. `ε = Empty`). -/
def nextSlice (p : Pat σ Empty) (st : σ) (s : List Nat) :
    Option (List Nat) × List Nat × σ :=
  match tryNextSlice p st s with
  | Except.ok r => r
  | Except.error e => e.elim

/-- Source `StringIter::next_slice_back`: the infallible unwrap of
`try_next_slice_back`. -/
def nextSliceBack (p : Pat σ Empty) (st : σ) (s : List Nat) :
    Option (List Nat) × List Nat × σ :=
  match tryNextSliceBack p st s with
  | Except.ok r => r
  | Except.error e => e.elim

/-! ## Claim-side characterization of the scan (claims C1, C10, C4) -/

/-- Claim side: the verdict of the pattern's test on every unit, threading the
pattern state through the whole list (this is the "no pattern test errors"
hypothesis in explicit form). -/
def runTests (p : Pat σ ε) (st : σ) : List ScanUnit → Except ε (List Bool × σ)
  | [] => Except.ok ([], st)
  | u :: rest =>
    match p.test st u.c u.view with
    | (Except.error e, _) => Except.error e
    | (Except.ok b, st2) =>
      match runTests p st2 rest with
      | Except.error e => Except.error e
      | Except.ok (bs, stf) => Except.ok (b :: bs, stf)

/-- Claim side: boundary and matched-unit length determined by the first unit
whose test verdict is `true`; the default (full length, 0) applies when no
unit matches. -/
def boundaryOf (us : List ScanUnit) (bs : List Bool) (d : Nat × Nat) : Nat × Nat :=
  match us[bs.findIdx id]? with
  | some u => (u.off, u.clen)
  | none => d

/-- The scanning loop realizes the first-true-verdict characterization. -/
theorem scanUnits_boundary {p : Pat σ ε} {st : σ} {us : List ScanUnit}
    {bs : List Bool} {stf : σ} (dI dL : Nat)
    (h : runTests p st us = Except.ok (bs, stf)) :
    ∃ st2, scanUnits p st us dI dL =
      Except.ok ((boundaryOf us bs (dI, dL)).1, (boundaryOf us bs (dI, dL)).2, st2) := by
  induction us generalizing st bs with
  | nil =>
    simp only [runTests, Except.ok.injEq, Prod.mk.injEq] at h
    obtain ⟨rfl, -⟩ := h
    exact ⟨st, rfl⟩
  | cons u rest ih =>
    rcases hu : p.test st u.c u.view with ⟨r, st2⟩
    simp only [runTests, hu] at h
    rcases r with e | b
    · cases h
    · rcases hrest : runTests p st2 rest with e2 | ⟨bs2, stf2⟩ <;> simp only [hrest] at h
      · cases h
      · simp only [Except.ok.injEq, Prod.mk.injEq] at h
        obtain ⟨rfl, rfl⟩ := h
        cases b with
        | true =>
          refine ⟨st2, ?_⟩
          simp only [scanUnits, hu, boundaryOf, List.findIdx_cons, id, cond_true,
            List.getElem?_cons_zero]
        | false =>
          obtain ⟨st3, hst3⟩ := ih hrest
          refine ⟨st3, ?_⟩
          simp only [scanUnits, hu, boundaryOf, List.findIdx_cons, id, cond_false,
            List.getElem?_cons_succ]
          exact hst3

/-- C1: on an empty cursor `try_next_slice` returns `Ok(None)`; on a non-empty
cursor, when no pattern test errors, it returns `Ok(Some(view))` where the
boundary is the byte offset of the first unit whose test returns `true` (or
the full byte length with matched-unit length 0 when no unit matches — the
whole remainder, never "no match"), and the separator disposition determines
the outcome: Retain returns the view up to the boundary and keeps the matched
unit in the cursor; Yield returns the view up to boundary plus matched unit
and removes it; Split returns the view up to the boundary and removes the
matched unit; Conjoin returns the view including the matched unit while
keeping it. -/
theorem C1_try_next_slice_spec (p : Pat σ ε) (st : σ) (s : List Nat) :
    (s = [] → tryNextSlice p st s = Except.ok (none, s, st)) ∧
    (∀ bs stf, s ≠ [] → runTests p st (unitsFor p s) = Except.ok (bs, stf) →
      ∃ st2, tryNextSlice p st s =
        Except.ok
          (some (match p.sep with
            | Sep.Retain => s.take (boundaryOf (unitsFor p s) bs (s.length, 0)).1
            | Sep.Yield => s.take ((boundaryOf (unitsFor p s) bs (s.length, 0)).1
                + (boundaryOf (unitsFor p s) bs (s.length, 0)).2)
            | Sep.Split => s.take (boundaryOf (unitsFor p s) bs (s.length, 0)).1
            | Sep.Conjoin => s.take ((boundaryOf (unitsFor p s) bs (s.length, 0)).1
                + (boundaryOf (unitsFor p s) bs (s.length, 0)).2)),
          match p.sep with
            | Sep.Retain => s.drop (boundaryOf (unitsFor p s) bs (s.length, 0)).1
            | Sep.Yield => s.drop ((boundaryOf (unitsFor p s) bs (s.length, 0)).1
                + (boundaryOf (unitsFor p s) bs (s.length, 0)).2)
            | Sep.Split => s.drop ((boundaryOf (unitsFor p s) bs (s.length, 0)).1
                + (boundaryOf (unitsFor p s) bs (s.length, 0)).2)
            | Sep.Conjoin => s.drop (boundaryOf (unitsFor p s) bs (s.length, 0)).1,
          st2)) := by
  constructor
  · intro hs
    subst hs
    rfl
  · intro bs stf hne hrun
    obtain ⟨st2, hscan⟩ := scanUnits_boundary s.length 0 hrun
    refine ⟨st2, ?_⟩
    have hlen : ¬ s.length = 0 := by
      cases s
      · exact absurd rfl hne
      · simp
    simp only [tryNextSlice, hlen, if_false, hscan]
    cases hsep : p.sep <;>
      simp [Sep.isYielded, Sep.isRetained, hsep]

theorem C1_try_next_slice_spec_witness :
    ∃ st2, tryNextSlice (charPat 98) () [97, 98, 99] =
      Except.ok (some [97], [98, 99], st2) :=
  (C1_try_next_slice_spec (charPat 98) () [97, 98, 99]).2 [false, true, false] ()
    (by decide) rfl

/-- The first unit examined by a scan sits at byte offset 0. -/
theorem unitsFor_head_off (p : Pat σ ε) (s : List Nat) (u : ScanUnit)
    (us : List ScanUnit) (h : unitsFor p s = u :: us) : u.off = 0 := by
  unfold unitsFor at h
  split_ifs at h
  · unfold units1 at h
    cases hl : s.length with
    | zero =>
      rw [hl] at h
      simp [units1F] at h
    | succ f =>
      rw [hl] at h
      rcases hn : nextChar s with - | ⟨c, v, r⟩ <;> simp only [units1F, hn] at h
      · cases h
      · simp only [List.cons.injEq] at h
        rw [← h.1]
  · unfold unitsLA at h
    cases hl : s.length with
    | zero =>
      rw [hl] at h
      simp [unitsLAF] at h
    | succ f =>
      rw [hl] at h
      rcases hn : nextChar s with - | ⟨c, v, r⟩ <;> simp only [unitsLAF, hn] at h
      · cases h
      · simp only [List.cons.injEq] at h
        rw [← h.1]

/-- Cursor after one slicing call; a failed (error) call leaves the iterator
unchanged, as documented in `slice.rs`. -/
def sliceCursor (p : Pat σ ε) (st : σ) (s : List Nat) : List Nat :=
  match tryNextSlice p st s with
  | Except.ok (_, cur, _) => cur
  | Except.error _ => s

/-- Cursor after `n` repeated identical slicing calls (same pattern and
initial pattern state each time, as when the same pattern value is passed
again). -/
def iterSliceCursor (p : Pat σ ε) (st : σ) (s : List Nat) : Nat → List Nat
  | 0 => s
  | n + 1 => sliceCursor p st (iterSliceCursor p st s n)

/-- C10: for a non-empty cursor and a Retain-disposition pattern whose test
returns true on the very first unit, `next_slice` returns `Some` of the empty
view and leaves the cursor byte-for-byte unchanged, so repeated identical
calls never advance the cursor. -/
theorem C10_retain_first_match_no_progress (p : Pat σ ε) (st st2 : σ)
    (s : List Nat) (u : ScanUnit) (us : List ScanUnit)
    (hne : s ≠ []) (hsep : p.sep = Sep.Retain)
    (hu : unitsFor p s = u :: us)
    (hm : p.test st u.c u.view = (Except.ok true, st2)) :
    tryNextSlice p st s = Except.ok (some [], s, st2) ∧
    ∀ n, iterSliceCursor p st s n = s := by
  have hoff : u.off = 0 := unitsFor_head_off p s u us hu
  have hlen : ¬ s.length = 0 := by
    cases s
    · exact absurd rfl hne
    · simp
  have hmain : tryNextSlice p st s = Except.ok (some [], s, st2) := by
    simp only [tryNextSlice, hlen, if_false, hu, scanUnits, hm, hsep, hoff,
      Sep.isYielded, Sep.isRetained]
    simp
  refine ⟨hmain, ?_⟩
  intro n
  induction n with
  | zero => rfl
  | succ m ih =>
    simp only [iterSliceCursor, ih, sliceCursor, hmain]

theorem C10_retain_first_match_no_progress_witness :
    tryNextSlice (charPat 97) () [97, 98] = Except.ok (some [], [97, 98], ()) ∧
    iterSliceCursor (charPat 97) () [97, 98] 5 = [97, 98] := by
  have h := C10_retain_first_match_no_progress (charPat 97) () () [97, 98]
    ⟨97, [97], 0, 1⟩ [⟨98, [98], 1, 1⟩] (by decide) rfl rfl rfl
  exact ⟨h.1, h.2 5⟩

/-- A stateful pattern counting its test invocations (models a Rust `FnMut`
closure pattern with a captured counter, returning `false` every time). -/
def countPat : Pat Nat Empty where
  test := fun n _ _ => (Except.ok false, n + 1)

/-- C4 evaluation: `try_next_slice_back` is not the mirror of
`try_next_slice`.  On cursor "ab" with the never-matching stateless pattern
'x': the forward operation yields the whole remainder and empties the cursor,
but the backward operation yields the empty view and leaves the cursor
unchanged (its no-match fallback keeps `index = len`, which mirrors to the
wrong end).  With a counting pattern, the backward operation invokes the test
4 times for the 2 units (the source's duplicated second scan loop), where the
mirrored forward scan invokes it exactly twice. -/
theorem C4_back_not_mirror_eval :
    tryNextSlice (charPat 120) () [97, 98] = Except.ok (some [97, 98], [], ()) ∧
    tryNextSliceBack (charPat 120) () [97, 98] = Except.ok (some [], [97, 98], ()) ∧
    tryNextSlice countPat 0 [97, 98] = Except.ok (some [97, 98], [], 2) ∧
    tryNextSliceBack countPat 0 [97, 98] = Except.ok (some [], [97, 98], 4) :=
  ⟨rfl, rfl, rfl, rfl⟩

/-! ## Trimming (`iter_fns.rs`) -/

/-- Loop of `StringIter::trim_start_by`: advance `index` over leading matching
code points (match-until-false); the fuel (byte length at entry) bounds the
iterations, each of which advances `index` by at least one. -/
def trimStartLoopF (p : Pat σ Empty) : Nat → σ → List Nat → Nat → Nat
  | 0, _, _, index => index
  | fuel + 1, st, s, index =>
    match s[index]? with
    | none => index
    | some x =>
      let cvl : Nat × List Nat × Nat :=
        if x < 0x80 then (s2c1 ((s.drop index).take 1), (s.drop index).take 1, 1)
        else if x < 0xE0 then (s2c2 ((s.drop index).take 2), (s.drop index).take 2, 2)
        else if x < 0xF0 then (s2c3 ((s.drop index).take 3), (s.drop index).take 3, 3)
        else (s2c4 ((s.drop index).take 4), (s.drop index).take 4, 4)
      match p.test st cvl.1 cvl.2.1 with
      | (Except.error e, _) => e.elim
      | (Except.ok true, st2) => trimStartLoopF p fuel st2 s (index + cvl.2.2)
      | (Except.ok false, _) => index

/-- Source `StringIter::trim_start_by`. -/
def trimStartBy (p : Pat σ Empty) (st : σ) (s : List Nat) : List Nat :=
  s.drop (trimStartLoopF p s.length st s 0)

/-- Loop of `StringIter::trim_end_by`, embedded exactly as written: the byte
at `index` picks the decode branch, the tested view is `s[i..index]`, and each
`i -= 1` that would underflow `usize` (a debug panic / release
out-of-contract slice) is modelled as `none`. -/
def trimEndLoopF (p : Pat σ Empty) : Nat → σ → List Nat → Nat → Option Nat
  | 0, _, _, _ => none
  | fuel + 1, st, s, index =>
    match s[index]? with
    | none => some index
    | some x =>
      if index = 0 then none
      else
        let i1 := index - 1
        if x < 0x80 then
          let v := (s.drop i1).take (index - i1)
          match p.test st (s2c1 v) v with
          | (Except.error e, _) => e.elim
          | (Except.ok false, _) => some index
          | (Except.ok true, st2) => trimEndLoopF p fuel st2 s i1
        else if i1 = 0 then none
        else
          let i2 := i1 - 1
          if byteAt s i2 &&& 0b11000000 = 0b11000000 then
            let v := (s.drop i2).take (index - i2)
            match p.test st (s2c2 v) v with
            | (Except.error e, _) => e.elim
            | (Except.ok false, _) => some index
            | (Except.ok true, st2) => trimEndLoopF p fuel st2 s i2
          else if i2 = 0 then none
          else
            let i3 := i2 - 1
            if byteAt s i3 &&& 0b11100000 = 0b11100000 then
              let v := (s.drop i3).take (index - i3)
              match p.test st (s2c3 v) v with
              | (Except.error e, _) => e.elim
              | (Except.ok false, _) => some index
              | (Except.ok true, st2) => trimEndLoopF p fuel st2 s i3
            else if i3 = 0 then none
            else
              let i4 := i3 - 1
              let v := (s.drop i4).take (index - i4)
              match p.test st (s2c4 v) v with
              | (Except.error e, _) => e.elim
              | (Except.ok false, _) => some index
              | (Except.ok true, st2) => trimEndLoopF p fuel st2 s i4

/-- Source `StringIter::trim_end_by`.  On the empty cursor the source's
`self.len() - 1` underflows (debug panic / release out-of-contract slice),
modelled as `none`. -/
def trimEndBy (p : Pat σ Empty) (st : σ) (s : List Nat) : Option (List Nat) :=
  if s.length = 0 then none
  else (trimEndLoopF p s.length st s (s.length - 1)).map (fun i => s.take i)

/-- C3 evaluation: `trim_end_by` does not remove the maximal run of trailing
matching code points.  On cursor "cab" with the pattern matching only 'a',
the trailing 'b' tests false (first conjunct) so the claim requires the
cursor to stay "cab"; the code instead starts its scan one byte early,
removes "ab" — including the non-matching 'b', whose test it never runs — and
leaves "c". -/
theorem C3_trim_end_removes_nonmatching_eval :
    (charPat 97).test () 98 [98] = (Except.ok false, ()) ∧
    trimStartBy (charPat 97) () [99, 97, 98] = [99, 97, 98] ∧
    trimEndBy (charPat 97) () [99, 97, 98] = some [99] :=
  ⟨rfl, rfl, rfl⟩

/-- C6 evaluation: the cursor does not always remain sliceable at code-point
boundaries.  The cursor "aßß" is validly encoded (first conjunct), yet
`trim_end_by` with the pattern matching only 'a' leaves the byte list
`[97, 195, 159, 195]`, which ends in the middle of a two-byte code point and
fails the UTF-8 shape validator; on the empty cursor the same operation
underflows (`none`). -/
theorem C6_trim_end_breaks_boundary_eval :
    Encodes [97, 223, 223] [97, 195, 159, 195, 159] ∧
    trimEndBy (charPat 97) () [97, 195, 159, 195, 159] = some [97, 195, 159, 195] ∧
    validUtf8 [97, 195, 159, 195] = false ∧
    trimEndBy (charPat 97) () [] = none := by
  refine ⟨⟨by decide, ?_⟩, rfl, rfl, rfl⟩
  intro c hc
  simp only [List.mem_cons, List.not_mem_nil, or_false] at hc
  rcases hc with rfl | rfl | rfl <;> exact ⟨by decide, Or.inl (by decide)⟩

/-! ## Splitting engine (`split.rs`) -/

/-- Source `SplitGuardFirst` (`split.rs`): wraps a pattern; while the flag is
false it invokes the inner pattern's test (for its side effects) but discards
the verdict — including an error — and reports "no match". -/
def SplitGuardFirst (p : Pat σ ε) : Pat (Bool × σ) ε where
  test := fun st c v =>
    match st with
    | (false, ps) => (Except.ok false, (true, (p.test ps c v).2))
    | (true, ps) =>
      let r := p.test ps c v
      (r.1, (true, r.2))
  len := p.len
  lenPos := p.lenPos
  sep := p.sep

/-- Source `SplitGuard`: while the flag is false it skips the inner test
entirely and reports "no match". -/
def SplitGuard (p : Pat σ ε) : Pat (Bool × σ) ε where
  test := fun st c v =>
    match st with
    | (false, ps) => (Except.ok false, (true, ps))
    | (true, ps) =>
      let r := p.test ps c v
      (r.1, (true, r.2))
  len := p.len
  lenPos := p.lenPos
  sep := p.sep

/-- Initial guard flag (`SplitGuardFirst::new` / `SplitGuard::new`):
`!pat.sep().is_retained()`, so the guard is active only for retained
dispositions. -/
def guardInit (p : Pat σ ε) : Bool := !p.sep.isRetained

/-- State of a `SplitIter`: the remaining cursor, the shared pattern state
(`PatRef`), and the call count. -/
structure SplitState (σ : Type u) where
  cursor : List Nat
  pstate : σ
  count : Nat

/-- Source `SplitIter::next`: the first call (`count == 0`) slices with a
fresh `SplitGuardFirst`, later calls with a fresh `SplitGuard`, both around
the shared pattern state. -/
def splitNext (p : Pat σ Empty) (st : SplitState σ) :
    Option (List Nat) × SplitState σ :=
  if st.count = 0 then
    match nextSlice (SplitGuardFirst p) (guardInit p, st.pstate) st.cursor with
    | (v, cur2, (_, ps2)) => (v, ⟨cur2, ps2, st.count + 1⟩)
  else
    match nextSlice (SplitGuard p) (guardInit p, st.pstate) st.cursor with
    | (v, cur2, (_, ps2)) => (v, ⟨cur2, ps2, st.count + 1⟩)

/-- Source `StringIter::into_substrs`: panics (modelled `none`) iff the
pattern's disposition is Conjoin; otherwise returns the split iterator. -/
def intoSubstrs (p : Pat σ Empty) (ps : σ) (s : List Nat) :
    Option (Pat σ Empty × SplitState σ) :=
  if p.sep = Sep.Conjoin then none
  else some (p, ⟨s, ps, 0⟩)

/-- Source `StringIter::into_splits`: wraps the pattern with
`sep_with(Sep::Split)` and constructs the iterator; it has no panic path. -/
def intoSplits (p : Pat σ Empty) (ps : σ) (s : List Nat) :
    Option (Pat σ Empty × SplitState σ) :=
  some (p.sepWith Sep.Split, ⟨s, ps, 0⟩)

/-- Collect up to `fuel` elements of the split sequence (repeated
`SplitIter::next` until the first `None`). -/
def splitRun (p : Pat σ Empty) : Nat → SplitState σ → List (List Nat)
  | 0, _ => []
  | fuel + 1, st =>
    match splitNext p st with
    | (none, _) => []
    | (some v, st2) => v :: splitRun p fuel st2

/-- Apply `SplitIter::next` `n` times, keeping only the state. -/
def splitDrain (p : Pat σ Empty) : Nat → SplitState σ → SplitState σ
  | 0, st => st
  | n + 1, st => splitDrain p n (splitNext p st).2

/-! ## Interval pattern (`interval.rs`) -/

/-- Cumulative sums (the loop of `Interval::new` filling `interval`). -/
def cumSums (acc : Nat) : List Nat → List Nat
  | [] => []
  | x :: rest => (acc + x) :: cumSums (acc + x) rest

/-- Source `Interval::new`: a panic (empty length list or a zero length) is
modelled `none`; precomputes cumulative boundaries and reduces a positive
start offset modulo the period (the last cumulative sum). -/
def Interval.new (cursor : Int) (lengths : List Nat) : Option (Int × List Nat) :=
  if lengths.length = 0 then none
  else if lengths.any (fun x => x = 0) then none
  else
    let interval := cumSums 0 lengths
    some (if 0 < cursor then cursor % ((interval.getLastD 1 : Nat) : Int) else cursor,
      interval)

/-- Source `Interval::matches` (with `Interval::len`, the last cumulative
sum): increment the signed cursor; while negative report no match; once
non-negative reduce modulo the period and match iff the result is 0 or a
cumulative boundary. -/
def intervalTest (interval : List Nat) (cursor : Int) : Except Empty Bool × Int :=
  let c := cursor + 1
  if c < 0 then (Except.ok false, c)
  else
    let c2 := c % ((interval.getLastD 1 : Nat) : Int)
    (Except.ok (decide (c2 = 0) || interval.any (fun x => (x : Int) = c2)), c2)

/-- The Interval pattern instance: its state is the signed cursor and its
default separator disposition is Yield. -/
def intervalPat (interval : List Nat) : Pat Int Empty where
  test := fun cur _ _ => intervalTest interval cur
  sep := Sep.Yield

/-- C9: splitting "aaaaaaaaaabbcddeff" with the Interval pattern built from
lengths [2,1] and start offset -10 (cumulative boundaries [2,3], period 3,
default Yield) yields exactly ["aaaaaaaaaa","bb","c","dd","e","ff"] and then
ends: with 19 units of fuel the sequence still has only those 6 views, so the
7th call returned None. -/
theorem C9_interval_split_eval :
    Interval.new (-10) [2, 1] = some (-10, [2, 3]) ∧
    intoSubstrs (intervalPat [2, 3]) (-10)
        [97, 97, 97, 97, 97, 97, 97, 97, 97, 97, 98, 98, 99, 100, 100, 101, 102, 102]
      = some (intervalPat [2, 3],
        ⟨[97, 97, 97, 97, 97, 97, 97, 97, 97, 97, 98, 98, 99, 100, 100, 101, 102, 102],
          -10, 0⟩) ∧
    splitRun (intervalPat [2, 3]) 19
        ⟨[97, 97, 97, 97, 97, 97, 97, 97, 97, 97, 98, 98, 99, 100, 100, 101, 102, 102],
          -10, 0⟩
      = [[97, 97, 97, 97, 97, 97, 97, 97, 97, 97], [98, 98], [99], [100, 100],
         [101], [102, 102]] := by
  refine ⟨by decide, rfl, by decide⟩

/-- C8 counterexample: a Conjoin-disposition pattern handed to the splitting
constructor `into_splits` does not raise any error — construction succeeds,
with the disposition silently forced to Split. -/
theorem C8_conjoin_into_splits_no_panic :
    intoSplits ((charPat 97).sepWith Sep.Conjoin) () [97]
      = some (((charPat 97).sepWith Sep.Conjoin).sepWith Sep.Split, ⟨[97], (), 0⟩) ∧
    (((charPat 97).sepWith Sep.Conjoin).sepWith Sep.Split).sep = Sep.Split :=
  ⟨rfl, rfl⟩

/-- C8 (amended): for every Conjoin-disposition pattern, the plain splitting
constructor `into_substrs` raises the configuration error immediately at
construction (modelled `none`), while the discarding constructor
`into_splits` never raises — it forces the disposition to Split. -/
theorem C8_conjoin_into_substrs_panics (p : Pat σ Empty) (ps : σ) (s : List Nat) :
    (p.sep = Sep.Conjoin → intoSubstrs p ps s = none) ∧
    intoSplits p ps s = some (p.sepWith Sep.Split, ⟨s, ps, 0⟩) ∧
    (p.sepWith Sep.Split).sep = Sep.Split := by
  refine ⟨fun h => ?_, rfl, rfl⟩
  simp [intoSubstrs, h]

theorem C8_conjoin_into_substrs_panics_witness :
    intoSubstrs ((charPat 97).sepWith Sep.Conjoin) () [97] = none :=
  (C8_conjoin_into_substrs_panics ((charPat 97).sepWith Sep.Conjoin) () [97]).1 rfl

/-! ## Merge utility (`merge.rs`) -/

/-- Source `merge` (`merge.rs`): views are modelled as (byte offset, byte
length) into the parent, replacing the source's raw address arithmetic;
merging succeeds only when the second view begins exactly where the first
ends and the combined span lies within the parent. -/
def merge (parent : List Nat) (first second : Nat × Nat) : Option (Nat × Nat) :=
  if first.1 + first.2 = second.1 then
    if first.1 + first.2 + second.2 > parent.length then none
    else some (first.1, first.2 + second.2)
  else none

/-- Loop of `MergeIter::next` (`merge.rs`) with explicit fuel: `none` means
the loop has not returned after `fuel` iterations.  When the next view is
adjacent but the predicate rejects the pair, the source neither advances the
iterator nor leaves the loop. -/
def mergeNextLoop (parent : List Nat) (pred : Nat × Nat → Nat × Nat → Bool) :
    Nat → Nat × Nat → Nat × Nat → List (Nat × Nat) →
    Option ((Nat × Nat) × List (Nat × Nat))
  | 0, _, _, _ => none
  | fuel + 1, curr, last, views =>
    match views with
    | [] => some (curr, [])
    | nxt :: rest =>
      match merge parent curr nxt with
      | some merged =>
        if pred last nxt then mergeNextLoop parent pred fuel merged nxt rest
        else mergeNextLoop parent pred fuel curr last (nxt :: rest)
      | none => some (curr, nxt :: rest)

/-- Source `MergeIter::next` under a fuel bound: outer `none` means the call
did not run to completion within `fuel` loop iterations; `some none` is the
iterator's own `None`. -/
def mergeNext (parent : List Nat) (pred : Nat × Nat → Nat × Nat → Bool)
    (fuel : Nat) (views : List (Nat × Nat)) :
    Option (Option ((Nat × Nat) × List (Nat × Nat))) :=
  match views with
  | [] => some none
  | curr :: rest => (mergeNextLoop parent pred fuel curr curr rest).map some

/-- C5: refuted by evaluation — on parent "ab" with the two adjacent views
"a" and "b" and the always-false predicate, `MergeIter::next` never returns:
for every fuel bound the loop is still running (it keeps peeking the same
adjacent view, and the rejecting branch neither consumes it nor breaks). -/
theorem C5_merge_by_next_nonterminating :
    ∀ fuel : Nat,
      mergeNext [97, 98] (fun _ _ => false) fuel [(0, 1), (1, 1)] = none := by
  intro fuel
  suffices h : ∀ f : Nat,
      mergeNextLoop [97, 98] (fun _ _ => false) f (0, 1) (0, 1) [(1, 1)] = none by
    show (mergeNextLoop [97, 98] (fun _ _ => false) fuel (0, 1) (0, 1) [(1, 1)]).map
      some = none
    rw [h fuel]
    rfl
  intro f
  induction f with
  | zero => rfl
  | succ g ih => simpa [mergeNextLoop, merge] using ih

/-! ## Progress of the split sequence (claim C7) -/

theorem nextChar_chunk_pos {s : List Nat} {c : Nat} {v r : List Nat}
    (h : nextChar s = some (c, v, r)) : 1 ≤ v.length := by
  cases s with
  | nil => simp [nextChar] at h
  | cons x t =>
    simp only [nextChar, List.head?] at h
    split_ifs at h <;>
      (simp only [Option.some.injEq, Prod.mk.injEq] at h
       obtain ⟨-, hv, -⟩ := h
       subst hv
       simp)

theorem utf8Len_pos (c : Nat) : 1 ≤ utf8Len c := by
  unfold utf8Len
  split_ifs <;> omega

theorem units1F_off_le (fuel : Nat) :
    ∀ (s : List Nat) (off : Nat) (u : ScanUnit),
      u ∈ units1F fuel s off → off ≤ u.off := by
  induction fuel with
  | zero =>
    intro s off u h
    simp [units1F] at h
  | succ f ih =>
    intro s off u h
    rcases hn : nextChar s with - | ⟨c, v, r⟩ <;> simp only [units1F, hn] at h
    · simp at h
    · simp only [List.mem_cons] at h
      rcases h with rfl | h
      · exact le_refl off
      · have := ih r (off + v.length) u h
        omega

theorem unitsLAF_off_le (l : Nat) (fuel : Nat) :
    ∀ (s : List Nat) (off : Nat) (u : ScanUnit),
      u ∈ unitsLAF l fuel s off → off ≤ u.off := by
  induction fuel with
  | zero =>
    intro s off u h
    simp [unitsLAF] at h
  | succ f ih =>
    intro s off u h
    rcases hn : nextChar s with - | ⟨c, v, r⟩ <;> simp only [unitsLAF, hn] at h
    · simp at h
    · simp only [List.mem_cons] at h
      rcases h with rfl | h
      · simp
      · have := ih r (off + v.length) u h
        omega

theorem units1F_clen_pos (fuel : Nat) :
    ∀ (s : List Nat) (off : Nat) (u : ScanUnit),
      u ∈ units1F fuel s off → 1 ≤ u.clen := by
  induction fuel with
  | zero =>
    intro s off u h
    simp [units1F] at h
  | succ f ih =>
    intro s off u h
    rcases hn : nextChar s with - | ⟨c, v, r⟩ <;> simp only [units1F, hn] at h
    · simp at h
    · simp only [List.mem_cons] at h
      rcases h with rfl | h
      · exact nextChar_chunk_pos hn
      · exact ih r (off + v.length) u h

theorem unitsLAF_clen_pos (l : Nat) (fuel : Nat) :
    ∀ (s : List Nat) (off : Nat) (u : ScanUnit),
      u ∈ unitsLAF l fuel s off → 1 ≤ u.clen := by
  induction fuel with
  | zero =>
    intro s off u h
    simp [unitsLAF] at h
  | succ f ih =>
    intro s off u h
    rcases hn : nextChar s with - | ⟨c, v, r⟩ <;> simp only [unitsLAF, hn] at h
    · simp at h
    · simp only [List.mem_cons] at h
      rcases h with rfl | h
      · exact utf8Len_pos c
      · exact ih r (off + v.length) u h

/-- Structure of the unit list on a non-empty cursor: a first unit plus a
tail whose units all sit at byte offset at least 1. -/
theorem unitsFor_structure (p : Pat σ ε) (s : List Nat) (hne : s ≠ []) :
    ∃ u0 us2, unitsFor p s = u0 :: us2 ∧
      (∀ w ∈ us2, 1 ≤ w.off) ∧ (∀ w ∈ unitsFor p s, 1 ≤ w.clen) := by
  rcases hn : nextChar s with - | ⟨c, v, r⟩
  · exact absurd ((nextChar_none_iff s).1 hn) hne
  have hv : 1 ≤ v.length := nextChar_chunk_pos hn
  have hlen : ∃ f, s.length = f + 1 := by
    cases s
    · exact absurd rfl hne
    · exact ⟨_, rfl⟩
  obtain ⟨f, hf⟩ := hlen
  unfold unitsFor units1 unitsLA
  rw [hf]
  split_ifs
  · refine ⟨_, _, by rw [units1F, hn], ?_, ?_⟩
    · intro w hw
      have := units1F_off_le f r (0 + v.length) w hw
      omega
    · intro w hw
      rw [units1F, hn] at hw
      simp only [List.mem_cons] at hw
      rcases hw with rfl | hw
      · exact nextChar_chunk_pos hn
      · exact units1F_clen_pos f r (0 + v.length) w hw
  · refine ⟨_, _, by rw [unitsLAF, hn], ?_, ?_⟩
    · intro w hw
      have := unitsLAF_off_le p.len f r (0 + v.length) w hw
      omega
    · intro w hw
      rw [unitsLAF, hn] at hw
      simp only [List.mem_cons] at hw
      rcases hw with rfl | hw
      · exact utf8Len_pos c
      · exact unitsLAF_clen_pos p.len f r (0 + v.length) w hw

/-- An infallible scan always returns, with either the default index/length
or those of some unit. -/
theorem scanUnits_cases (p : Pat σ Empty) (st : σ) (us : List ScanUnit)
    (dI dL : Nat) :
    ∃ i k st2, scanUnits p st us dI dL = Except.ok (i, k, st2) ∧
      ((i = dI ∧ k = dL) ∨ ∃ u ∈ us, i = u.off ∧ k = u.clen) := by
  induction us generalizing st with
  | nil => exact ⟨dI, dL, st, rfl, Or.inl ⟨rfl, rfl⟩⟩
  | cons u rest ih =>
    rcases hu : p.test st u.c u.view with ⟨r, st2⟩
    rcases r with e | b
    · exact e.elim
    · cases b with
      | true =>
        exact ⟨u.off, u.clen, st2, by simp [scanUnits, hu],
          Or.inr ⟨u, List.mem_cons_self u rest, rfl, rfl⟩⟩
      | false =>
        obtain ⟨i, k, st3, hscan, hcase⟩ := ih st2
        refine ⟨i, k, st3, by simp [scanUnits, hu, hscan], ?_⟩
        rcases hcase with h1 | ⟨w, hw, h2⟩
        · exact Or.inl h1
        · exact Or.inr ⟨w, List.mem_cons_of_mem u hw, h2⟩

/-- Slicing with a guard wrapper on a non-empty cursor always yields `Some`
and strictly shrinks the cursor (the progress guarantee of the split layer).
The guard hypotheses are satisfied by both `SplitGuardFirst` and
`SplitGuard`: on the first examined unit (flag false) the verdict is forced
to "no match". -/
theorem nextSlice_guard_progress (p : Pat σ Empty) (g : Pat (Bool × σ) Empty)
    (hsep : g.sep = p.sep) (hlen : g.len = p.len)
    (hfirst : ∀ ps c v, ∃ ps2,
      g.test (false, ps) c v = (Except.ok false, (true, ps2)))
    (ps : σ) (s : List Nat) (hne : s ≠ []) :
    ∃ v cur2 gs2, nextSlice g (guardInit p, ps) s = (some v, cur2, gs2) ∧
      cur2.length < s.length := by
  have hlen0 : ¬ s.length = 0 := by
    cases s
    · exact absurd rfl hne
    · simp
  have hlen1 : 1 ≤ s.length := by omega
  obtain ⟨u0, us2, hu, hofftail, hclen⟩ := unitsFor_structure g s hne
  cases hr : p.sep.isRetained with
  | true =>
    have hgi : guardInit p = false := by simp [guardInit, hr]
    obtain ⟨ps2, hg⟩ := hfirst ps u0.c u0.view
    obtain ⟨i, k, st2, hscan, hcase⟩ := scanUnits_cases g (true, ps2) us2 s.length 0
    have hi : 1 ≤ i := by
      rcases hcase with ⟨rfl, -⟩ | ⟨w, hw, rfl, -⟩
      · exact hlen1
      · exact hofftail w hw
    have hscan2 : scanUnits g (guardInit p, ps) (unitsFor g s) s.length 0
        = Except.ok (i, k, st2) := by
      rw [hgi, hu]
      simp only [scanUnits, hg]
      exact hscan
    have hslice : tryNextSlice g (guardInit p, ps) s =
        Except.ok (some (if g.sep.isYielded then s.take (i + k) else s.take i),
          if g.sep.isRetained then s.drop i else s.drop (i + k), st2) := by
      unfold tryNextSlice
      rw [if_neg hlen0, hscan2]
    refine ⟨if g.sep.isYielded then s.take (i + k) else s.take i,
      if g.sep.isRetained then s.drop i else s.drop (i + k), st2, ?_, ?_⟩
    · unfold nextSlice
      rw [hslice]
    · rw [hsep, hr]
      simp only [if_true]
      simp only [List.length_drop]
      omega
  | false =>
    have hgi : guardInit p = true := by simp [guardInit, hr]
    obtain ⟨i, k, st2, hscan, hcase⟩ :=
      scanUnits_cases g (true, ps) (u0 :: us2) s.length 0
    have hik : 1 ≤ i + k := by
      rcases hcase with ⟨rfl, -⟩ | ⟨w, hw, rfl, rfl⟩
      · omega
      · have : 1 ≤ w.clen := hclen w (by rw [hu]; exact hw)
        omega
    have hscan2 : scanUnits g (guardInit p, ps) (unitsFor g s) s.length 0
        = Except.ok (i, k, st2) := by
      rw [hgi, hu]
      exact hscan
    have hslice : tryNextSlice g (guardInit p, ps) s =
        Except.ok (some (if g.sep.isYielded then s.take (i + k) else s.take i),
          if g.sep.isRetained then s.drop i else s.drop (i + k), st2) := by
      unfold tryNextSlice
      rw [if_neg hlen0, hscan2]
    refine ⟨if g.sep.isYielded then s.take (i + k) else s.take i,
      if g.sep.isRetained then s.drop i else s.drop (i + k), st2, ?_, ?_⟩
    · unfold nextSlice
      rw [hslice]
    · rw [hsep, hr]
      simp only [Bool.false_eq_true, if_false]
      simp only [List.length_drop]
      omega

/-- On a non-empty cursor every `SplitIter::next` call yields `Some` and
consumes at least one byte (hence at least one code point). -/
theorem splitNext_progress (p : Pat σ Empty) (st : SplitState σ)
    (hne : st.cursor ≠ []) :
    ∃ v st2, splitNext p st = (some v, st2) ∧
      st2.cursor.length < st.cursor.length := by
  obtain ⟨cur, ips, cnt⟩ := st
  by_cases hcnt : cnt = 0
  · obtain ⟨v, cur2, gs2, hns, hlt⟩ :=
      nextSlice_guard_progress p (SplitGuardFirst p) rfl rfl
        (fun ps c w => ⟨(p.test ps c w).2, rfl⟩) ips cur hne
    obtain ⟨flag2, ps2⟩ := gs2
    refine ⟨v, ⟨cur2, ps2, cnt + 1⟩, ?_, hlt⟩
    simp [splitNext, hcnt, hns]
  · obtain ⟨v, cur2, gs2, hns, hlt⟩ :=
      nextSlice_guard_progress p (SplitGuard p) rfl rfl
        (fun ps c w => ⟨ps, rfl⟩) ips cur hne
    obtain ⟨flag2, ps2⟩ := gs2
    refine ⟨v, ⟨cur2, ps2, cnt + 1⟩, ?_, hlt⟩
    simp [splitNext, hcnt, hns]

/-- On the empty cursor `SplitIter::next` returns `None` and leaves the
cursor empty. -/
theorem splitNext_empty (p : Pat σ Empty) (st : SplitState σ)
    (h : st.cursor = []) :
    splitNext p st = (none, ⟨[], st.pstate, st.count + 1⟩) := by
  obtain ⟨cur, ips, cnt⟩ := st
  simp only at h
  subst h
  by_cases hcnt : cnt = 0 <;>
    simp [splitNext, hcnt, nextSlice, tryNextSlice]

/-- After as many calls as there are bytes, the cursor is exhausted. -/
theorem splitDrain_cursor_empty (p : Pat σ Empty) :
    ∀ (n : Nat) (st : SplitState σ), st.cursor.length ≤ n →
      (splitDrain p n st).cursor = [] := by
  intro n
  induction n with
  | zero =>
    intro st h
    simp only [Nat.le_zero, List.length_eq_zero] at h
    exact h
  | succ m ih =>
    intro st h
    by_cases hcur : st.cursor = []
    · have he := splitNext_empty p st hcur
      show (splitDrain p m (splitNext p st).2).cursor = []
      rw [he]
      exact ih _ (by simp)
    · obtain ⟨v, st2, hn, hlt⟩ := splitNext_progress p st hcur
      show (splitDrain p m (splitNext p st).2).cursor = []
      rw [hn]
      exact ih st2 (by omega)

/-- C7: for every pattern (any disposition; a Conjoin pattern cannot reach
the split layer through `into_substrs`, and `into_splits` forces Split) each
`SplitIter::next` call on a non-empty cursor yields `Some` and consumes at
least one code point, so the split sequence returns `None` after at most as
many calls as there are bytes; on the first call of a Retain-disposition
pattern the guard invokes the pattern's test on the first unit but forces the
verdict to "no match" while keeping the test's state change. -/
theorem C7_split_progress_and_finite (p : Pat σ Empty)
    (hc : p.sep ≠ Sep.Conjoin) :
    (∀ st : SplitState σ, st.cursor ≠ [] →
      ∃ v st2, splitNext p st = (some v, st2) ∧
        st2.cursor.length < st.cursor.length) ∧
    (∀ st : SplitState σ, st.cursor = [] →
      splitNext p st = (none, ⟨[], st.pstate, st.count + 1⟩)) ∧
    (∀ st : SplitState σ,
      (splitNext p (splitDrain p st.cursor.length st)).1 = none) ∧
    (∀ (ps : σ) (c : Nat) (v : List Nat),
      (SplitGuardFirst p).test (false, ps) c v
        = (Except.ok false, (true, (p.test ps c v).2))) := by
  refine ⟨splitNext_progress p, splitNext_empty p, ?_, fun ps c v => rfl⟩
  intro st
  have hdrain := splitDrain_cursor_empty p st.cursor.length st (le_refl _)
  rw [splitNext_empty p _ hdrain]

theorem C7_split_progress_and_finite_witness :
    (∃ v st2, splitNext (charPat 32) ⟨[32, 97], (), 0⟩ = (some v, st2) ∧
      st2.cursor.length < 2) ∧
    (splitNext (charPat 32) (splitDrain (charPat 32) 2 ⟨[32, 97], (), 0⟩)).1
      = none := by
  have h := C7_split_progress_and_finite (charPat 32) (by decide)
  exact ⟨h.1 ⟨[32, 97], (), 0⟩ (by decide), h.2.2.1 ⟨[32, 97], (), 0⟩⟩

end StringIter
